import Mathlib

/-!
Verification development for the femus element-assembly examples.

Shallow embedding of:
  * `AssembleBoussinesqAppoximation_AD` (Boussinesq / Navier-Stokes transient
    assembler, applications/Conformal/ex7): per-element quadrature-loop residual
    accumulation, the Res/Jac copy-out layout, the adept recording layout and
    the scatter into the global system;
  * `neumann_loop_1d` and `neumann_loop_2d3d` (applications/2021_fall/shaflynn):
    boundary Neumann/Robin contributions;
  * `GetKineandPointVlaue` (Conformal/ex7): the max/min point-probe selection;
  * the `FieldSplitTree` instances built in `main` of Conformal/ex7.

The assembler is embedded generically over a field `K`: the C++ code computes
with `double` (and adept `adouble`), read here as exact field arithmetic.  The
physical coefficients that the code computes from the hard-wired constants
`alpha = 1`, `beta = 1`, `Pr = 0.015`, `Ra = 3000`, namely
`1/sqrt(Ra*Pr)*alpha` and `sqrt(Pr/Ra)`, are carried as parameters `cT` and
`cV` of the element record (they are irrational, and every theorem below holds
for all of their values).
-/

/-- Per-element data of the Boussinesq assembler that does not depend on the
current solution: dof counts, quadrature weights, shape-function values and
gradients at each Gauss point (from the external shape-function provider),
the time step `dt` and the physical coefficients.  Field names follow the
variables of `AssembleBoussinesqAppoximation_AD`. -/
structure BElem (K : Type) where
  dim : ℕ
  nDofsT : ℕ
  nDofsV : ℕ
  nDofsP : ℕ
  nGauss : ℕ
  weight : ℕ → K
  phiT : ℕ → ℕ → K
  phiT_x : ℕ → ℕ → ℕ → K
  phiV : ℕ → ℕ → K
  phiV_x : ℕ → ℕ → ℕ → K
  phiP : ℕ → ℕ → K
  dt : K
  cT : K
  cV : K
  beta : K

variable {K : Type} [Field K]

/-- Interpolated temperature at Gauss point `g` (`solT_gss` and, applied to the
old nodal values, `solTold_gss`). -/
def BElem.solT_gss (e : BElem K) (sT : ℕ → K) (g : ℕ) : K :=
  ∑ i ∈ Finset.range e.nDofsT, e.phiT g i * sT i

/-- Interpolated temperature gradient component `j` at Gauss point `g`
(`gradSolT_gss`). -/
def BElem.gradSolT_gss (e : BElem K) (sT : ℕ → K) (g j : ℕ) : K :=
  ∑ i ∈ Finset.range e.nDofsT, e.phiT_x (g) (i) (j) * sT i

/-- Interpolated velocity component `k` at Gauss point `g` (`solV_gss`). -/
def BElem.solV_gss (e : BElem K) (sV : ℕ → ℕ → K) (g k : ℕ) : K :=
  ∑ i ∈ Finset.range e.nDofsV, e.phiV g i * sV k i

/-- Interpolated velocity gradient `d(V_k)/d(x_j)` at Gauss point `g`
(`gradSolV_gss`). -/
def BElem.gradSolV_gss (e : BElem K) (sV : ℕ → ℕ → K) (g k j : ℕ) : K :=
  ∑ i ∈ Finset.range e.nDofsV, e.phiV_x (g) (i) (j) * sV k i

/-- Interpolated pressure at Gauss point `g` (`solP_gss`). -/
def BElem.solP_gss (e : BElem K) (sP : ℕ → K) (g : ℕ) : K :=
  ∑ i ∈ Finset.range e.nDofsP, e.phiP g i * sP i

/-- The temperature weak-form integrand accumulated into `Temp` (and, applied
to the old state, `TempOld`) for test function `i` at Gauss point `g`:
diffusion `cT * phiT_x · gradT` plus advection `phiT * (V · gradT)`. -/
def BElem.Temp (e : BElem K) (sT : ℕ → K) (sV : ℕ → ℕ → K) (g i : ℕ) : K :=
  ∑ j ∈ Finset.range e.dim,
    (e.cT * e.phiT_x (g) (i) (j) * e.gradSolT_gss sT g j
      + e.phiT g i * (e.solV_gss sV g j * e.gradSolT_gss sT g j))

/-- The momentum weak-form integrand accumulated into `NSV[k]` (and `NSVold[k]`)
for test function `i` at Gauss point `g`: symmetric viscous term and advection
(the `j` loop), then the pressure term, then the buoyancy term added only to
component `k = 1`. -/
def BElem.NSV (e : BElem K) (sT : ℕ → K) (sV : ℕ → ℕ → K) (sP : ℕ → K)
    (g i k : ℕ) : K :=
  (∑ j ∈ Finset.range e.dim,
    (e.cV * e.phiV_x (g) (i) (j)
        * (e.gradSolV_gss sV g k j + e.gradSolV_gss sV g j k)
      + e.phiV g i * (e.solV_gss sV g j * e.gradSolV_gss sV g k j)))
  + (-(e.solP_gss sP g) * e.phiV_x (g) (i) (k))
  + (if k = 1 then -(e.beta) * e.solT_gss sT g * e.phiV g i else 0)

/-- The contribution of Gauss point `g` to `aResT[i]`:
`(-(solT_gss - solTold_gss) * phiT[i] / dt - 0.5 * (Temp + TempOld)) * weight`. -/
def BElem.gaussResT (e : BElem K) (sT sTold : ℕ → K) (sV sVold : ℕ → ℕ → K)
    (g i : ℕ) : K :=
  (-(e.solT_gss sT g - e.solT_gss sTold g) * e.phiT g i / e.dt
    - (1 / 2) * (e.Temp sT sV g i + e.Temp sTold sVold g i)) * e.weight g

/-- The local temperature residual accumulator `aResT[i]`, summed over the
Gauss-point loop. -/
def BElem.aResT (e : BElem K) (sT sTold : ℕ → K) (sV sVold : ℕ → ℕ → K)
    (i : ℕ) : K :=
  ∑ g ∈ Finset.range e.nGauss, e.gaussResT sT sTold sV sVold g i

/-- The contribution of Gauss point `g` to `aResV[k][i]`:
`(-(solV_gss[k] - solVold_gss[k]) * phiV[i] / dt - 0.5 * (NSV[k] + NSVold[k])) * weight`. -/
def BElem.gaussResV (e : BElem K) (sT sTold : ℕ → K) (sV sVold : ℕ → ℕ → K)
    (sP sPold : ℕ → K) (g i k : ℕ) : K :=
  (-(e.solV_gss sV g k - e.solV_gss sVold g k) * e.phiV g i / e.dt
    - (1 / 2) * (e.NSV sT sV sP g i k + e.NSV sTold sVold sPold g i k))
    * e.weight g

/-- The local momentum residual accumulator `aResV[k][i]`. -/
def BElem.aResV (e : BElem K) (sT sTold : ℕ → K) (sV sVold : ℕ → ℕ → K)
    (sP sPold : ℕ → K) (k i : ℕ) : K :=
  ∑ g ∈ Finset.range e.nGauss, e.gaussResV sT sTold sV sVold sP sPold g i k

/-- The contribution of Gauss point `g` to `aResP[i]`: the divergence
constraint `-(gradSolV_gss[k][k]) * phiP[i] * weight` summed over `k`. -/
def BElem.gaussResP (e : BElem K) (sV : ℕ → ℕ → K) (g i : ℕ) : K :=
  ∑ k ∈ Finset.range e.dim, (-(e.gradSolV_gss sV g k k) * e.phiP g i * e.weight g)

/-- The local pressure residual accumulator `aResP[i]`. -/
def BElem.aResP (e : BElem K) (sV : ℕ → ℕ → K) (i : ℕ) : K :=
  ∑ g ∈ Finset.range e.nGauss, e.gaussResP sV g i

/-- Total number of local unknowns, `nDofsTVP = nDofsT + dim * nDofsV + nDofsP`. -/
def BElem.nDofsTVP (e : BElem K) : ℕ := e.nDofsT + e.dim * e.nDofsV + e.nDofsP

/-- The local residual vector `Res` copied out of the accumulators with a sign
flip (`Res[i] = -aResT[i]`, `Res[i + nDofsT + k*nDofsV] = -aResV[k][i]`,
`Res[i + nDofsT + dim*nDofsV] = -aResP[i]`), in the block layout of `sysDof`. -/
def BElem.ResList (e : BElem K) (sT sTold : ℕ → K) (sV sVold : ℕ → ℕ → K)
    (sP sPold : ℕ → K) : List K :=
  ((List.range e.nDofsT).map fun i => -(e.aResT sT sTold sV sVold i))
  ++ ((List.range e.dim).flatMap fun k =>
        (List.range e.nDofsV).map fun i => -(e.aResV sT sTold sV sVold sP sPold k i))
  ++ ((List.range e.nDofsP).map fun i => -(e.aResP sV i))

/-- C4: in the transient assembler, the contribution of every quadrature point
to every entry of the scattered residual (the negated accumulator) is the
quadrature weight times the sum of the first-order backward difference of the
interpolated value over the step size `dt` (tested against the shape function)
and the arithmetic average, with factor `1/2` each, of the weak-form integrand
evaluated at the current and at the old solution; and the accumulator is
exactly the sum of these per-quadrature-point contributions. -/
theorem c4_transient_trapezoidal_average (e : BElem K) (sT sTold : ℕ → K)
    (sV sVold : ℕ → ℕ → K) (sP sPold : ℕ → K) (g i k : ℕ) :
    (-(e.gaussResT sT sTold sV sVold g i)
      = e.weight g * ((e.solT_gss sT g - e.solT_gss sTold g) * e.phiT g i / e.dt
          + (1 / 2) * (e.Temp sT sV g i + e.Temp sTold sVold g i)))
    ∧ (-(e.gaussResV sT sTold sV sVold sP sPold g i k)
      = e.weight g * ((e.solV_gss sV g k - e.solV_gss sVold g k) * e.phiV g i / e.dt
          + (1 / 2) * (e.NSV sT sV sP g i k + e.NSV sTold sVold sPold g i k)))
    ∧ (e.aResT sT sTold sV sVold i
      = ∑ g ∈ Finset.range e.nGauss, e.gaussResT sT sTold sV sVold g i)
    ∧ (e.aResV sT sTold sV sVold sP sPold k i
      = ∑ g ∈ Finset.range e.nGauss, e.gaussResV sT sTold sV sVold sP sPold g i k) := by
  refine ⟨?_, ?_, rfl, rfl⟩
  · unfold BElem.gaussResT
    ring
  · unfold BElem.gaussResV
    ring

/-! ## Local block layout, `sysDof`, and the adept declaration order -/

/-- A local residual/unknown slot: temperature dof `i`, velocity-component
dof `(k, i)`, or pressure dof `i`. -/
inductive Slot where
  | T (i : ℕ) : Slot
  | V (k i : ℕ) : Slot
  | P (i : ℕ) : Slot
deriving DecidableEq, Repr

/-- The local-to-global dof maps returned by `pdeSys->GetSystemDof` for one
element, one per field. -/
structure DofMaps where
  dofT : ℕ → ℕ
  dofV : ℕ → ℕ → ℕ
  dofP : ℕ → ℕ

/-- Global system index of a slot. -/
def DofMaps.slotDof (dm : DofMaps) : Slot → ℕ
  | .T i => dm.dofT i
  | .V k i => dm.dofV k i
  | .P i => dm.dofP i

/-- The order in which the dependent (residual) blocks are declared to the
adept stack: `s.dependent(&aResT[0], nDofsT)`, then `s.dependent(&aResV[k][0],
nDofsV)` for `k = 0..dim-1`, then `s.dependent(&aResP[0], nDofsP)`. -/
def depDecls (nT nV nP dim : ℕ) : List Slot :=
  ((List.range nT).map .T)
  ++ ((List.range dim).flatMap fun k => (List.range nV).map (.V k))
  ++ ((List.range nP).map .P)

/-- The order in which the independent (unknown) blocks are declared to the
adept stack: `s.independent(&solT[0], nDofsT)`, then `s.independent(&solV[k][0],
nDofsV)` for `k = 0..dim-1`, then `s.independent(&solP[0], nDofsP)`. -/
def indepDecls (nT nV nP dim : ℕ) : List Slot :=
  ((List.range nT).map .T)
  ++ ((List.range dim).flatMap fun k => (List.range nV).map (.V k))
  ++ ((List.range nP).map .P)

/-- Decode a position of the concatenated local layout into its slot:
positions `< nT` are temperature dofs, positions in `[nT, nT + dim*nV)` are
velocity dofs (block `k`, local index `i` with `p = nT + k*nV + i`), and the
rest are pressure dofs. -/
def slotOfPos (nT nV nP dim p : ℕ) : Slot :=
  if p < nT then .T p
  else if p < nT + dim * nV then .V ((p - nT) / nV) ((p - nT) % nV)
  else .P (p - (nT + dim * nV))

/-- Replay a list of indexed writes (position, value) into a function, in
order; the embedding of a loop of array stores. -/
def writeAll {A : Type} (ws : List (ℕ × A)) (a : ℕ → A) : ℕ → A :=
  ws.foldl (fun f w => Function.update f w.1 w.2) a

/-- The `sysDof` array as filled by the three local-storage loops of
`AssembleBoussinesqAppoximation_AD`: `sysDof[i] = dofT i` for `i < nDofsT`;
`sysDof[i + nDofsT + k*nDofsV] = dofV k i` for `i < nDofsV`, `k < dim`
(`i` outer, `k` inner, as in the code); `sysDof[i + nDofsT + dim*nDofsV] =
dofP i` for `i < nDofsP`. -/
def sysDofFun (nT nV nP dim : ℕ) (dm : DofMaps) : ℕ → ℕ :=
  let f1 := writeAll ((List.range nT).map fun i => (i, dm.dofT i)) (fun _ => 0)
  let f2 := (List.range nV).foldl
    (fun f i => writeAll ((List.range dim).map fun k => (i + nT + k * nV, dm.dofV k i)) f) f1
  writeAll ((List.range nP).map fun i => (i + nT + dim * nV, dm.dofP i)) f2

theorem writeAll_append {A : Type} (ws1 ws2 : List (ℕ × A)) (a : ℕ → A) :
    writeAll (ws1 ++ ws2) a = writeAll ws2 (writeAll ws1 a) := by
  simp [writeAll, List.foldl_append]

theorem writeAll_range_miss {A : Type} (pos : ℕ → ℕ) (val : ℕ → A) (n : ℕ)
    (a : ℕ → A) (x : ℕ) (hx : ∀ i, i < n → pos i ≠ x) :
    writeAll ((List.range n).map fun i => (pos i, val i)) a x = a x := by
  induction n with
  | zero => simp [writeAll]
  | succ n ih =>
    rw [List.range_succ, List.map_append, writeAll_append]
    have h1 : pos n ≠ x := hx n (Nat.lt_succ_self n)
    simp only [List.map_cons, List.map_nil, writeAll, List.foldl_cons, List.foldl_nil]
    rw [Function.update_noteq (Ne.symm h1)]
    exact ih fun i hi => hx i (Nat.lt_succ_of_lt hi)

theorem writeAll_range_hit {A : Type} (pos : ℕ → ℕ) (val : ℕ → A) (n : ℕ)
    (a : ℕ → A) (i : ℕ) (hi : i < n)
    (hinj : ∀ j, j < n → pos j = pos i → j = i) :
    writeAll ((List.range n).map fun j => (pos j, val j)) a (pos i) = val i := by
  induction n with
  | zero => omega
  | succ n ih =>
    rw [List.range_succ, List.map_append, writeAll_append]
    simp only [List.map_cons, List.map_nil, writeAll, List.foldl_cons, List.foldl_nil]
    rcases Nat.lt_succ_iff_lt_or_eq.mp hi with h | h
    · have hne : pos n ≠ pos i := fun hEq => by
        have := hinj n (Nat.lt_succ_self n) hEq
        omega
      rw [Function.update_noteq (Ne.symm hne)]
      exact ih h fun j hj => hinj j (Nat.lt_succ_of_lt hj)
    · subst h
      simp

theorem writeAll_flatMap {A : Type} (g : ℕ → List (ℕ × A)) (l : List ℕ) (a : ℕ → A) :
    writeAll (l.flatMap g) a = l.foldl (fun f i => writeAll (g i) f) a := by
  induction l generalizing a with
  | nil => rfl
  | cons x xs ih =>
    simp only [List.flatMap_cons, List.foldl_cons]
    rw [writeAll_append, ih]

theorem range_flatMap_eq_range_mul {A : Type} (h : ℕ → ℕ → A) (n m : ℕ) :
    ((List.range n).flatMap fun i => (List.range m).map (h i))
      = (List.range (n * m)).map fun t => h (t / m) (t % m) := by
  rcases Nat.eq_zero_or_pos m with hm | hm
  · subst hm
    simp
  · induction n with
    | zero => simp
    | succ n ih =>
      rw [List.range_succ, List.flatMap_append, ih, Nat.succ_mul, List.range_add,
        List.map_append]
      congr 1
      simp only [List.flatMap_cons, List.flatMap_nil, List.append_nil, List.map_map]
      refine List.map_congr_left fun k hk => ?_
      have hkm : k < m := List.mem_range.mp hk
      have h1 : (n * m + k) / m = n + k / m := by
        rw [Nat.add_comm, Nat.add_mul_div_right _ _ hm, Nat.add_comm]
      have h2 : (n * m + k) % m = k % m := by
        rw [Nat.add_comm, Nat.add_mul_mod_self_right]
      simp [Function.comp, h1, h2, Nat.div_eq_of_lt hkm, Nat.mod_eq_of_lt hkm]

theorem getD_map_range {A : Type} (f : ℕ → A) (n t : ℕ) (ht : t < n) (d : A) :
    ((List.range n).map f).getD t d = f t := by
  rw [List.getD_eq_getElem?_getD]
  simp [List.getElem?_map, List.getElem?_range, ht]

/-- Every position of the local layout decodes as the `sysDof` loops wrote it:
the array built by the three write loops agrees, at every position `p` below
`nDofsT + dim*nDofsV + nDofsP`, with the global dof of the decoded slot. -/
theorem sysDofFun_eq_slotDof (nT nV nP dim : ℕ) (dm : DofMaps) (p : ℕ)
    (hp : p < nT + dim * nV + nP) :
    sysDofFun nT nV nP dim dm p = dm.slotDof (slotOfPos nT nV nP dim p) := by
  have hVfold : ∀ f : ℕ → ℕ,
      List.foldl
        (fun f i => writeAll ((List.range dim).map fun k => (i + nT + k * nV, dm.dofV k i)) f)
        f (List.range nV)
      = writeAll ((List.range (nV * dim)).map fun t =>
          (t / dim + nT + t % dim * nV, dm.dofV (t % dim) (t / dim))) f := by
    intro f
    rw [← range_flatMap_eq_range_mul (fun i k => (i + nT + k * nV, dm.dofV k i))]
    exact (writeAll_flatMap _ _ _).symm
  unfold sysDofFun
  rw [hVfold]
  have hPmiss : ∀ x, x < nT + dim * nV → ∀ a : ℕ → ℕ,
      writeAll ((List.range nP).map fun i => (i + nT + dim * nV, dm.dofP i)) a x = a x := by
    intro x hx a
    exact writeAll_range_miss (fun i => i + nT + dim * nV) (fun i => dm.dofP i) nP a x
      (fun i _ => by show i + nT + dim * nV ≠ x; omega)
  have hVmiss : ∀ x, x < nT → ∀ a : ℕ → ℕ,
      writeAll ((List.range (nV * dim)).map fun t =>
        (t / dim + nT + t % dim * nV, dm.dofV (t % dim) (t / dim))) a x = a x := by
    intro x hx a
    refine writeAll_range_miss (fun t => t / dim + nT + t % dim * nV)
      (fun t => dm.dofV (t % dim) (t / dim)) (nV * dim) a x ?_
    intro t _
    show t / dim + nT + t % dim * nV ≠ x
    have hle : nT ≤ t / dim + nT + t % dim * nV :=
      calc nT ≤ t / dim + nT := Nat.le_add_left _ _
      _ ≤ t / dim + nT + t % dim * nV := Nat.le_add_right _ _
    intro heq
    rw [heq] at hle
    omega
  by_cases h1 : p < nT
  · -- temperature region: the V and P writes miss, the T write hits
    rw [hPmiss p (by omega), hVmiss p h1]
    have hThit : ∀ a : ℕ → ℕ,
        writeAll ((List.range nT).map fun i => (i, dm.dofT i)) a p = dm.dofT p := by
      intro a
      exact writeAll_range_hit (fun i => i) (fun i => dm.dofT i) nT a p h1 (fun j _ hj => hj)
    rw [hThit]
    simp [slotOfPos, h1, DofMaps.slotDof]
  · by_cases h2 : p < nT + dim * nV
    · -- velocity region
      have hdim : 0 < dim := by
        by_contra h
        have : dim = 0 := by omega
        rw [this] at h2
        omega
      have hnV : 0 < nV := by
        by_contra h
        have : nV = 0 := by omega
        rw [this] at h2
        omega
      have hq0 : p - nT < dim * nV := by omega
      have hq : (p - nT) / nV < dim := (Nat.div_lt_iff_lt_mul hnV).mpr hq0
      have hr : (p - nT) % nV < nV := Nat.mod_lt _ hnV
      have hdecomp : p = nT + (((p - nT) / nV) * nV + (p - nT) % nV) := by
        have h3 := Nat.div_add_mod (p - nT) nV
        have h4 : nV * ((p - nT) / nV) = ((p - nT) / nV) * nV := Nat.mul_comm _ _
        omega
      set q := (p - nT) / nV
      set r := (p - nT) % nV
      rw [hPmiss p h2]
      -- the V write at flattened index t0 = r * dim + q hits position p
      have ht0 : r * dim + q < nV * dim := by
        calc r * dim + q < r * dim + dim := by omega
        _ = (r + 1) * dim := by ring
        _ ≤ nV * dim := Nat.mul_le_mul_right dim hr
      have hdiv : (r * dim + q) / dim = r := by
        rw [Nat.add_comm, Nat.add_mul_div_right _ _ hdim, Nat.div_eq_of_lt hq, Nat.zero_add]
      have hmod : (r * dim + q) % dim = q := by
        rw [Nat.add_comm, Nat.add_mul_mod_self_right, Nat.mod_eq_of_lt hq]
      have hVhit : ∀ a : ℕ → ℕ,
          writeAll ((List.range (nV * dim)).map fun t =>
            (t / dim + nT + t % dim * nV, dm.dofV (t % dim) (t / dim))) a
            ((r * dim + q) / dim + nT + (r * dim + q) % dim * nV)
          = dm.dofV ((r * dim + q) % dim) ((r * dim + q) / dim) := by
        intro a
        refine writeAll_range_hit (fun t => t / dim + nT + t % dim * nV)
          (fun t => dm.dofV (t % dim) (t / dim)) (nV * dim) a (r * dim + q) ht0 ?_
        intro j hj hpj
        have hpj2 : j / dim + nT + j % dim * nV
            = (r * dim + q) / dim + nT + (r * dim + q) % dim * nV := hpj
        rw [hdiv, hmod] at hpj2
        have hjd : j % dim < dim := Nat.mod_lt _ hdim
        have hjv0 : j < nV * dim := hj
        have hjv : j / dim < nV := (Nat.div_lt_iff_lt_mul hdim).mpr hjv0
        -- j / dim + j % dim * nV = r + q * nV forces j / dim = r, j % dim = q
        have hEq : j / dim + j % dim * nV = r + q * nV := by omega
        clear hpj
        have hdivEq : j / dim = r := by
          have e1 : (j / dim + j % dim * nV) % nV = j / dim % nV :=
            Nat.add_mul_mod_self_right (j / dim) (j % dim) nV
          have e2 : (r + q * nV) % nV = r % nV :=
            Nat.add_mul_mod_self_right r q nV
          rw [hEq] at e1
          rw [Nat.mod_eq_of_lt hjv] at e1
          rw [Nat.mod_eq_of_lt hr] at e2
          omega
        have hmodEq : j % dim = q := by
          rw [hdivEq] at hEq
          have hmul : j % dim * nV = q * nV := by omega
          exact Nat.eq_of_mul_eq_mul_right hnV hmul
        have h5 := Nat.div_add_mod j dim
        rw [hdivEq, hmodEq] at h5
        have h6 : dim * r = r * dim := Nat.mul_comm _ _
        omega
      have hpp : p = (r * dim + q) / dim + nT + (r * dim + q) % dim * nV := by
        rw [hdiv, hmod]
        omega
      rw [hpp, hVhit, hdiv, hmod]
      have hps : slotOfPos nT nV nP dim (r + nT + q * nV) = Slot.V q r := by
        unfold slotOfPos
        have hx1 : ¬ r + nT + q * nV < nT := by omega
        have hx2 : r + nT + q * nV < nT + dim * nV := by
          have : (q + 1) * nV ≤ dim * nV := Nat.mul_le_mul_right nV hq
          have : q * nV + nV ≤ dim * nV := by
            calc q * nV + nV = (q + 1) * nV := by ring
            _ ≤ dim * nV := this
          omega
        have hx3 : (r + nT + q * nV - nT) / nV = q := by
          have : r + nT + q * nV - nT = r + q * nV := by omega
          rw [this, Nat.add_mul_div_right _ _ hnV, Nat.div_eq_of_lt hr, Nat.zero_add]
        have hx4 : (r + nT + q * nV - nT) % nV = r := by
          have : r + nT + q * nV - nT = r + q * nV := by omega
          rw [this, Nat.add_mul_mod_self_right, Nat.mod_eq_of_lt hr]
        rw [if_neg hx1, if_pos hx2, hx3, hx4]
      rw [hps]
      rfl
    · -- pressure region: the P write hits
      have hple : nT + dim * nV ≤ p := Nat.not_lt.mp h2
      have hpP : p - (nT + dim * nV) < nP := by omega
      have hPhit : ∀ a : ℕ → ℕ,
          writeAll ((List.range nP).map fun i => (i + nT + dim * nV, dm.dofP i)) a
            ((p - (nT + dim * nV)) + nT + dim * nV) = dm.dofP (p - (nT + dim * nV)) := by
        intro a
        refine writeAll_range_hit (fun i => i + nT + dim * nV) (fun i => dm.dofP i) nP a
          (p - (nT + dim * nV)) hpP ?_
        intro j hjlt hj
        have hj2 : j + nT + dim * nV = (p - (nT + dim * nV)) + nT + dim * nV := hj
        omega
      have hpp : p = (p - (nT + dim * nV)) + nT + dim * nV := by omega
      rw [hpp, hPhit]
      unfold slotOfPos
      have hx1 : ¬ (p - (nT + dim * nV)) + nT + dim * nV < nT := by omega
      have hx2 : ¬ (p - (nT + dim * nV)) + nT + dim * nV < nT + dim * nV := by omega
      rw [if_neg hx1, if_neg hx2]
      show dm.dofP _ = dm.dofP _
      congr 1
      omega

/-- Modelled from the spec: the distributed sparse backend operation
`KK->add_matrix_blocked(values, rowIndices, colIndices)` (the `AddBlocked`
external interface of the sparse-system backend, which is not under `src/`):
scatter-add a dense row-major block `vals` into the global matrix at the
global positions given by the index list (used with `rowIndices = colIndices
= sysDof`). -/
def addMatrixBlocked (KK : ℕ → ℕ → K) (vals : List K) (idx : List ℕ) : ℕ → ℕ → K :=
  fun r c => KK r c
    + ∑ p ∈ Finset.range idx.length, ∑ q ∈ Finset.range idx.length,
      (if idx.getD p 0 = r ∧ idx.getD q 0 = c then vals.getD (p * idx.length + q) 0 else 0)

/-- Modelled from the spec: the distributed backend operation
`RES->add_vector_blocked(values, indices)` (the `AddBlocked` external
interface): scatter-add a local value list into the global residual at the
positions of the index list. -/
def addVectorBlocked (res : ℕ → K) (vals : List K) (idx : List ℕ) : ℕ → K :=
  fun r => res r
    + ∑ p ∈ Finset.range idx.length, (if idx.getD p 0 = r then vals.getD p 0 else 0)

/-- The row-major local Jacobian block produced by `s.jacobian(&Jac[0], true)`
for an abstract entry function `dJ` (derivative of declared dependent with
respect to declared independent): rows concatenated in the declared dependent
order, each row in the declared independent order. -/
def jacRowMajor (nT nV nP dim : ℕ) (dJ : Slot → Slot → K) : List K :=
  (depDecls nT nV nP dim).flatMap fun ds =>
    (indepDecls nT nV nP dim).map fun is => dJ ds is

/-- The `sysDof` list sent to the scatter calls, read off positionally from
the array filled by the loops. -/
def sysDofList (nT nV nP dim : ℕ) (dm : DofMaps) : List ℕ :=
  (List.range (nT + dim * nV + nP)).map (sysDofFun nT nV nP dim dm)

theorem flatMap_map_getD {A B : Type} (l2 : List A) (g : A → A → B) (d : B) (dA : A) :
    ∀ (l1 : List A) (a b : ℕ), a < l1.length → b < l2.length →
    (l1.flatMap fun x => l2.map (g x)).getD (a * l2.length + b) d
      = g (l1.getD a dA) (l2.getD b dA) := by
  intro l1
  induction l1 with
  | nil => intro a b ha _; simp at ha
  | cons x xs ih =>
    intro a b ha hb
    cases a with
    | zero =>
      rw [List.flatMap_cons, Nat.zero_mul, Nat.zero_add,
        List.getD_append _ _ _ _ (by simpa using hb)]
      rw [List.getD_eq_getElem _ _ (by simpa using hb), List.getElem_map,
        List.getD_eq_getElem _ _ hb]
      rfl
    | succ a =>
      have hs : (a + 1) * l2.length = a * l2.length + l2.length := by ring
      rw [List.flatMap_cons,
        List.getD_append_right _ _ _ _ (by simp only [List.length_map]; omega)]
      have harith : (a + 1) * l2.length + b - (l2.map (g x)).length
          = a * l2.length + b := by
        simp only [List.length_map]
        omega
      rw [harith]
      exact ih a b (by simpa using ha) hb

theorem sum_map_range_const (nV : ℕ) : ∀ d : ℕ, (((List.range d).map fun _ => nV).sum) = d * nV := by
  intro d
  induction d with
  | zero => simp
  | succ d ih =>
    rw [List.range_succ, List.map_append, List.sum_append, ih]
    simp [Nat.succ_mul]

theorem depDecls_length (nT nV nP dim : ℕ) :
    (depDecls nT nV nP dim).length = nT + dim * nV + nP := by
  unfold depDecls
  simp only [List.length_append, List.length_map, List.length_range, List.length_flatMap]
  have h : ((List.range dim).map (List.length ∘ fun k => (List.range nV).map (Slot.V k))).sum
      = dim * nV := by
    have e : ((List.range dim).map (List.length ∘ fun k => (List.range nV).map (Slot.V k)))
        = ((List.range dim).map fun _ => nV) := by
      refine List.map_congr_left fun k _ => ?_
      simp [Function.comp]
    rw [e, sum_map_range_const]
  rw [h]

theorem sysDofList_length (nT nV nP dim : ℕ) (dm : DofMaps) :
    (sysDofList nT nV nP dim dm).length = nT + dim * nV + nP := by
  simp [sysDofList]

/-- The declared dependent order decodes positionally to the layout slots. -/
theorem depDecls_getD (nT nV nP dim p : ℕ) (hp : p < nT + dim * nV + nP) :
    (depDecls nT nV nP dim).getD p (.T 0) = slotOfPos nT nV nP dim p := by
  unfold depDecls slotOfPos
  rw [range_flatMap_eq_range_mul (fun k => Slot.V k)]
  have hlen1 : ((List.range nT).map Slot.T).length = nT := by simp
  have hlen12 : (((List.range nT).map Slot.T)
      ++ ((List.range (dim * nV)).map fun t => Slot.V (t / nV) (t % nV))).length
      = nT + dim * nV := by simp
  by_cases h2 : p < nT + dim * nV
  · rw [List.getD_append _ _ _ _ (by
      simp only [List.length_append, List.length_map, List.length_range]; omega)]
    by_cases h1 : p < nT
    · rw [List.getD_append _ _ _ _ (by
        simp only [List.length_map, List.length_range]; omega), getD_map_range _ _ _ h1]
      simp [h1]
    · rw [List.getD_append_right _ _ _ _ (by
        simp only [List.length_map, List.length_range]; omega), hlen1,
        getD_map_range _ _ _ (by omega)]
      simp [h1, h2]
  · rw [List.getD_append_right _ _ _ _ (by
      simp only [List.length_append, List.length_map, List.length_range]; omega), hlen12,
      getD_map_range _ _ _ (by omega)]
    have h1 : ¬ p < nT := by omega
    simp [h1, h2]

/-- C6: the dependent (residual) and independent (unknown) blocks are declared
to the recording in the same field order (T, then the velocity components,
then P) as the `sysDof` list is laid out, and the row-major extracted Jacobian
with blocks concatenated in declared order is scattered by
`add_matrix_blocked(Jac, sysDof, sysDof)` so that entry `dJ[dep][indep]` lands
at global position `(sysDof[dep], sysDof[indep])`. -/
theorem c6_recording_order_matches_scatter (nT nV nP dim : ℕ) (dm : DofMaps)
    (dJ : Slot → Slot → K) (KK : ℕ → ℕ → K) (dep indep : ℕ)
    (hdep : dep < nT + dim * nV + nP) (hindep : indep < nT + dim * nV + nP)
    (hinj : ∀ p, p < nT + dim * nV + nP → ∀ q, q < nT + dim * nV + nP →
      sysDofFun nT nV nP dim dm p = sysDofFun nT nV nP dim dm q → p = q) :
    depDecls nT nV nP dim = indepDecls nT nV nP dim
    ∧ dm.slotDof ((depDecls nT nV nP dim).getD dep (.T 0))
        = sysDofFun nT nV nP dim dm dep
    ∧ addMatrixBlocked KK (jacRowMajor nT nV nP dim dJ) (sysDofList nT nV nP dim dm)
        (sysDofFun nT nV nP dim dm dep) (sysDofFun nT nV nP dim dm indep)
      = KK (sysDofFun nT nV nP dim dm dep) (sysDofFun nT nV nP dim dm indep)
        + dJ ((depDecls nT nV nP dim).getD dep (.T 0))
            ((indepDecls nT nV nP dim).getD indep (.T 0)) := by
  refine ⟨rfl, ?_, ?_⟩
  · rw [depDecls_getD nT nV nP dim dep hdep, sysDofFun_eq_slotDof nT nV nP dim dm dep hdep]
  · set n := nT + dim * nV + nP with hn
    have hlen : (sysDofList nT nV nP dim dm).length = n := sysDofList_length nT nV nP dim dm
    have hgetD : ∀ p, p < n → (sysDofList nT nV nP dim dm).getD p 0
        = sysDofFun nT nV nP dim dm p := by
      intro p hp
      exact getD_map_range _ _ _ hp _
    unfold addMatrixBlocked
    rw [hlen]
    congr 1
    rw [Finset.sum_eq_single dep]
    · rw [Finset.sum_eq_single indep]
      · rw [if_pos ⟨hgetD dep hdep, hgetD indep hindep⟩]
        have hdlen : (depDecls nT nV nP dim).length = n := depDecls_length nT nV nP dim
        have hilen : (indepDecls nT nV nP dim).length = n := depDecls_length nT nV nP dim
        unfold jacRowMajor
        have := flatMap_map_getD (indepDecls nT nV nP dim)
          (fun ds is => dJ ds is) (0 : K) (Slot.T 0)
          (depDecls nT nV nP dim) dep indep (by rw [hdlen]; exact hdep)
          (by rw [hilen]; exact hindep)
        rw [hilen] at this
        exact this
      · intro b hb hbne
        have hb' : b < n := Finset.mem_range.mp hb
        have : (sysDofList nT nV nP dim dm).getD b 0
            ≠ sysDofFun nT nV nP dim dm indep := by
          rw [hgetD b hb']
          intro hEq
          exact hbne (hinj b hb' indep hindep hEq)
        rw [if_neg (fun hc => this hc.2)]
      · intro habs
        exact absurd (Finset.mem_range.mpr hindep) habs
    · intro b hb hbne
      have hb' : b < n := Finset.mem_range.mp hb
      refine Finset.sum_eq_zero fun q hq => ?_
      have : (sysDofList nT nV nP dim dm).getD b 0
          ≠ sysDofFun nT nV nP dim dm dep := by
        rw [hgetD b hb']
        intro hEq
        exact hbne (hinj b hb' dep hdep hEq)
      rw [if_neg (fun hc => this hc.1)]
    · intro habs
      exact absurd (Finset.mem_range.mpr hdep) habs

/-- Concrete dof maps for a small element (`nDofsT = nDofsV = nDofsP = 1`,
`dim = 2`): global dofs `0, 1, 2, 3` in layout order. -/
def dmW : DofMaps where
  dofT := fun i => i
  dofV := fun k i => 1 + k + i
  dofP := fun i => 3 + i

theorem c6_witness :
    depDecls 1 1 1 2 = indepDecls 1 1 1 2
    ∧ dmW.slotDof ((depDecls 1 1 1 2).getD 0 (.T 0)) = sysDofFun 1 1 1 2 dmW 0
    ∧ addMatrixBlocked (fun _ _ => (0 : ℚ)) (jacRowMajor 1 1 1 2 fun _ _ => (1 : ℚ))
        (sysDofList 1 1 1 2 dmW) (sysDofFun 1 1 1 2 dmW 0) (sysDofFun 1 1 1 2 dmW 3)
      = (fun _ _ => (0 : ℚ)) (sysDofFun 1 1 1 2 dmW 0) (sysDofFun 1 1 1 2 dmW 3)
        + (fun _ _ => (1 : ℚ)) ((depDecls 1 1 1 2).getD 0 (.T 0))
            ((indepDecls 1 1 1 2).getD 3 (.T 0)) :=
  c6_recording_order_matches_scatter 1 1 1 2 dmW (fun _ _ => (1 : ℚ)) (fun _ _ => (0 : ℚ))
    0 3 (by decide) (by decide) (by decide)

/-! ## The global assembly pass of the Boussinesq assembler -/

/-- The complete per-element input of `AssembleBoussinesqAppoximation_AD`:
element data, dof maps, and current and old local solution values. -/
structure ElemData (K : Type) where
  el : BElem K
  dm : DofMaps
  sT : ℕ → K
  sTold : ℕ → K
  sV : ℕ → ℕ → K
  sVold : ℕ → ℕ → K
  sP : ℕ → K
  sPold : ℕ → K

/-- The local residual list scattered for one element. -/
def elemRes (d : ElemData K) : List K :=
  d.el.ResList d.sT d.sTold d.sV d.sVold d.sP d.sPold

/-- The `sysDof` index list of one element. -/
def elemSysDof (d : ElemData K) : List ℕ :=
  sysDofList d.el.nDofsT d.el.nDofsV d.el.nDofsP d.el.dim d.dm

/-- One assembly pass of `AssembleBoussinesqAppoximation_AD` over the owned
elements: if `assembleMatrix` is set, `KK->zero()` first; then for each
element scatter `Res` via `add_vector_blocked` and, if `assembleMatrix`, the
extracted Jacobian (an arbitrary per-element extraction `jacOf`) via
`add_matrix_blocked`.  The residual vector is not zeroed inside this assemble
function.  The collective `close()` calls do not change any value in this
single-worker view. -/
def assemblePass (assembleMatrix : Bool) (jacOf : ElemData K → List K)
    (els : List (ElemData K)) (RES0 : ℕ → K) (KK0 : ℕ → ℕ → K) :
    (ℕ → K) × (ℕ → ℕ → K) :=
  let KK1 := if assembleMatrix then (fun _ _ => (0 : K)) else KK0
  els.foldl (fun acc d =>
    (addVectorBlocked acc.1 (elemRes d) (elemSysDof d),
     if assembleMatrix then addMatrixBlocked acc.2 (jacOf d) (elemSysDof d) else acc.2))
    (RES0, KK1)

/-- C2: an assembly pass with the matrix disabled (no recording, no Jacobian
extraction, no matrix scatter) produces exactly the same global residual
vector as a pass with the matrix enabled, from identical input state: the
residual path never consults `assembleMatrix` (over exact arithmetic; this
holds for every Jacobian-extraction function, in particular the derivative
one). -/
theorem c2_residual_same_with_or_without_matrix (jacOf : ElemData K → List K)
    (els : List (ElemData K)) (RES0 : ℕ → K) (KK0 KK0' : ℕ → ℕ → K) :
    (assemblePass true jacOf els RES0 KK0).1
      = (assemblePass false jacOf els RES0 KK0').1 := by
  have haux : ∀ (ds : List (ElemData K)) (R : ℕ → K) (K1 K2 : ℕ → ℕ → K),
      (ds.foldl (fun acc d =>
        (addVectorBlocked acc.1 (elemRes d) (elemSysDof d),
         addMatrixBlocked acc.2 (jacOf d) (elemSysDof d))) (R, K1)).1
      = (ds.foldl (fun acc d =>
        (addVectorBlocked acc.1 (elemRes d) (elemSysDof d), acc.2)) (R, K2)).1 := by
    intro ds
    induction ds with
    | nil => intro R K1 K2; rfl
    | cons d dt ih =>
      intro R K1 K2
      simp only [List.foldl_cons]
      exact ih _ _ _
  unfold assemblePass
  simp only [Bool.true_eq_false, Bool.false_eq_true, ite_true, ite_false, if_true, if_false]
  exact haux els RES0 _ KK0'

/-! ## Operation order of an assembly pass (zero / scatter-add / close) -/

/-- Observable operations on the global system during one assembly pass. -/
inductive AsmEvent where
  | zeroRES : AsmEvent
  | zeroKK : AsmEvent
  | addRES (iel : ℕ) : AsmEvent
  | addKK (iel : ℕ) : AsmEvent
  | closeRES : AsmEvent
  | closeKK : AsmEvent
deriving DecidableEq, Repr

def isZeroEv : AsmEvent → Bool
  | .zeroRES => true
  | .zeroKK => true
  | _ => false

def isAddEv : AsmEvent → Bool
  | .addRES _ => true
  | .addKK _ => true
  | _ => false

/-- The order of global-system operations performed by
`AssembleBoussinesqAppoximation_AD` itself: `KK->zero()` only when the matrix
is assembled (the function never zeroes `RES`), then per owned element
`RES->add_vector_blocked` and, when enabled, `KK->add_matrix_blocked`, then
`RES->close()` and, when enabled, `KK->close()`. -/
def boussinesqTrace (aM : Bool) (els : List ℕ) : List AsmEvent :=
  (if aM then [AsmEvent.zeroKK] else [])
  ++ (els.flatMap fun i =>
      [AsmEvent.addRES i] ++ (if aM then [AsmEvent.addKK i] else []))
  ++ [AsmEvent.closeRES]
  ++ (if aM then [AsmEvent.closeKK] else [])

/-- Modelled from the spec: the multigrid driver zeroes the global residual
vector exactly once per assembly pass before invoking the attached assemble
function (GlobalSystemAssembler lifecycle, "`Zero()` once per pass"); this
residual zeroing is performed by framework code that is not under `src/`.
The full pass trace is that zeroing followed by the assembler's own trace. -/
def assemblyPassTrace (aM : Bool) (els : List ℕ) : List AsmEvent :=
  AsmEvent.zeroRES :: boussinesqTrace aM els

/-- The order of global-system operations performed by `AssembleProblemDirNeu`
(shaflynn.cpp): `RES->zero()`, `JAC->zero()` when enabled, per-element
scatters, then the closes.  Here the residual zeroing is in the assemble
function itself. -/
def dirNeuTrace (aM : Bool) (els : List ℕ) : List AsmEvent :=
  AsmEvent.zeroRES
  :: ((if aM then [AsmEvent.zeroKK] else [])
    ++ (els.flatMap fun i =>
        [AsmEvent.addRES i] ++ (if aM then [AsmEvent.addKK i] else []))
    ++ [AsmEvent.closeRES]
    ++ (if aM then [AsmEvent.closeKK] else []))

/-- A trace zeroes the residual exactly once, zeroes the matrix exactly once
when (and only when) the matrix is assembled, and performs no zeroing from the
first scatter-add onwards. -/
def zeroedOnceBeforeAdds (tr : List AsmEvent) (aM : Bool) : Prop :=
  tr.count AsmEvent.zeroRES = 1
  ∧ tr.count AsmEvent.zeroKK = (if aM then 1 else 0)
  ∧ (tr.dropWhile (fun e => ! isAddEv e)).all (fun e => ! isZeroEv e) = true

theorem all_not_zero_dropWhile (l : List AsmEvent) (p : AsmEvent → Bool)
    (h : ∀ e ∈ l, isZeroEv e = false) :
    (l.dropWhile p).all (fun e => ! isZeroEv e) = true := by
  rw [List.all_eq_true]
  intro e he
  have hel : e ∈ l := (List.dropWhile_sublist p (l := l)).mem he
  simp [h e hel]

/-- C3: in both assembly passes, the global residual is zeroed exactly once
and the global matrix is zeroed exactly once precisely when matrix assembly is
enabled, and all zeroing happens before any element contribution is
scatter-added.  (For the Boussinesq assembler the residual zeroing is the
driver's, modelled from the spec; the `shaflynn` assembler zeroes both
itself.) -/
theorem count_flatMap_zero (g : ℕ → List AsmEvent)
    (hg : ∀ i e, e ∈ g i → isZeroEv e = false) (a : AsmEvent) (ha : isZeroEv a = true)
    (els : List ℕ) : (els.flatMap g).count a = 0 := by
  rw [List.count_eq_zero]
  intro hmem
  rcases List.mem_flatMap.mp hmem with ⟨i, _, hei⟩
  rw [hg i a hei] at ha
  exact Bool.false_ne_true ha

theorem c3_zeroed_exactly_once_before_adds (aM : Bool) (els : List ℕ) :
    zeroedOnceBeforeAdds (assemblyPassTrace aM els) aM
    ∧ zeroedOnceBeforeAdds (dirNeuTrace aM els) aM := by
  have hg1 : ∀ i e, e ∈ [AsmEvent.addRES i] → isZeroEv e = false := by
    intro i e he
    simp at he
    simp [he, isZeroEv]
  have hg2 : ∀ i e, e ∈ [AsmEvent.addRES i, AsmEvent.addKK i] → isZeroEv e = false := by
    intro i e he
    simp at he
    rcases he with he | he <;> simp [he, isZeroEv]
  have hm1 : ∀ e ∈ (els.flatMap fun i => [AsmEvent.addRES i]) ++ [AsmEvent.closeRES],
      isZeroEv e = false := by
    intro e he
    rcases List.mem_append.mp he with he | he
    · rcases List.mem_flatMap.mp he with ⟨i, _, hei⟩
      exact hg1 i e hei
    · simp at he
      simp [he, isZeroEv]
  have hm2 : ∀ e ∈ (els.flatMap fun i => [AsmEvent.addRES i, AsmEvent.addKK i])
      ++ [AsmEvent.closeRES, AsmEvent.closeKK], isZeroEv e = false := by
    intro e he
    rcases List.mem_append.mp he with he | he
    · rcases List.mem_flatMap.mp he with ⟨i, _, hei⟩
      exact hg2 i e hei
    · simp at he
      rcases he with he | he <;> simp [he, isZeroEv]
  have hc1R := count_flatMap_zero (fun i => [AsmEvent.addRES i]) hg1 AsmEvent.zeroRES rfl els
  have hc1K := count_flatMap_zero (fun i => [AsmEvent.addRES i]) hg1 AsmEvent.zeroKK rfl els
  have hc2R := count_flatMap_zero (fun i => [AsmEvent.addRES i, AsmEvent.addKK i]) hg2
    AsmEvent.zeroRES rfl els
  have hc2K := count_flatMap_zero (fun i => [AsmEvent.addRES i, AsmEvent.addKK i]) hg2
    AsmEvent.zeroKK rfl els
  unfold zeroedOnceBeforeAdds assemblyPassTrace boussinesqTrace dirNeuTrace
  rcases aM with _ | _
  · simp only [Bool.false_eq_true, if_false, ite_false, List.nil_append, List.append_nil]
    refine ⟨⟨?_, ?_, ?_⟩, ?_, ?_, ?_⟩
    · simp [List.count_cons, List.count_append, hc1R]
    · simp [List.count_cons, List.count_append, hc1K]
    · rw [List.dropWhile_cons]
      simp only [isAddEv, Bool.not_false, if_true, ite_true]
      exact all_not_zero_dropWhile _ _ hm1
    · simp [List.count_cons, List.count_append, hc1R]
    · simp [List.count_cons, List.count_append, hc1K]
    · rw [List.dropWhile_cons]
      simp only [isAddEv, Bool.not_false, if_true, ite_true]
      exact all_not_zero_dropWhile _ _ hm1
  · simp only [if_true, ite_true]
    have hbody : (els.flatMap fun i => [AsmEvent.addRES i] ++ [AsmEvent.addKK i])
        = els.flatMap fun i => [AsmEvent.addRES i, AsmEvent.addKK i] := by
      simp
    refine ⟨⟨?_, ?_, ?_⟩, ?_, ?_, ?_⟩
    · simp [List.count_cons, List.count_append, hbody, hc2R]
    · simp [List.count_cons, List.count_append, hbody, hc2K]
    · simp only [List.cons_append, List.nil_append, List.dropWhile_cons, isAddEv,
        Bool.not_false, Bool.not_true, if_true, ite_true]
      apply all_not_zero_dropWhile
      intro e he
      refine hm2 e ?_
      rw [← hbody]
      simpa using he
    · simp [List.count_cons, List.count_append, hbody, hc2R]
    · simp [List.count_cons, List.count_append, hbody, hc2K]
    · simp only [List.cons_append, List.nil_append, List.dropWhile_cons, isAddEv,
        Bool.not_false, Bool.not_true, if_true, ite_true]
      apply all_not_zero_dropWhile
      intro e he
      refine hm2 e ?_
      rw [← hbody]
      simpa using he

/-! ## Packed unknown layout and the adept Jacobian -/

/-- Evaluate the scattered residual entry of a slot (the negated accumulator,
as in the `Res` copy-out loops). -/
def BElem.slotRes (e : BElem K) (sT sTold : ℕ → K) (sV sVold : ℕ → ℕ → K)
    (sP sPold : ℕ → K) : Slot → K
  | .T i => -(e.aResT sT sTold sV sVold i)
  | .V k i => -(e.aResV sT sTold sV sVold sP sPold k i)
  | .P i => -(e.aResP sV i)

theorem ResList_eq_map_depDecls (e : BElem K) (sT sTold : ℕ → K)
    (sV sVold : ℕ → ℕ → K) (sP sPold : ℕ → K) :
    e.ResList sT sTold sV sVold sP sPold
      = (depDecls e.nDofsT e.nDofsV e.nDofsP e.dim).map
          (e.slotRes sT sTold sV sVold sP sPold) := by
  unfold BElem.ResList depDecls
  simp only [List.map_append, List.map_flatMap, List.map_map]
  rfl

/-- The local unknowns in the packed (declared/`sysDof`) layout, as separate
field arrays: position `p` decodes to its slot. -/
def BElem.unpackT (e : BElem K) (u : ℕ → K) : ℕ → K := fun i => u i

def BElem.unpackV (e : BElem K) (u : ℕ → K) : ℕ → ℕ → K :=
  fun k i => u (e.nDofsT + k * e.nDofsV + i)

def BElem.unpackP (e : BElem K) (u : ℕ → K) : ℕ → K :=
  fun i => u (e.nDofsT + e.dim * e.nDofsV + i)

/-- Pack the separate local solution arrays into the declared layout. -/
def BElem.pack (e : BElem K) (sT : ℕ → K) (sV : ℕ → ℕ → K) (sP : ℕ → K) : ℕ → K :=
  fun p => match slotOfPos e.nDofsT e.nDofsV e.nDofsP e.dim p with
  | .T i => sT i
  | .V k i => sV k i
  | .P i => sP i

/-- The dependent (residual accumulator) of position `p` of the declared
layout, as a function of the packed unknowns `u`; this is the function of the
independents that the adept recording tapes for dependent `p`. -/
def BElem.aResPacked (e : BElem K) (sTold : ℕ → K) (sVold : ℕ → ℕ → K)
    (sPold : ℕ → K) (u : ℕ → K) (p : ℕ) : K :=
  match slotOfPos e.nDofsT e.nDofsV e.nDofsP e.dim p with
  | .T i => e.aResT (e.unpackT u) sTold (e.unpackV u) sVold i
  | .V k i => e.aResV (e.unpackT u) sTold (e.unpackV u) sVold (e.unpackP u) sPold k i
  | .P i => e.aResP (e.unpackV u) i

/-- The scattered residual entry of position `p` (the negation of the
accumulator), as a function of the packed unknowns. -/
def BElem.ResPacked (e : BElem K) (sTold : ℕ → K) (sVold : ℕ → ℕ → K)
    (sPold : ℕ → K) (u : ℕ → K) (p : ℕ) : K :=
  -(e.aResPacked sTold sVold sPold u p)

theorem ResList_getD_eq_ResPacked (e : BElem K) (sTold : ℕ → K)
    (sVold : ℕ → ℕ → K) (sPold : ℕ → K) (u : ℕ → K) (p : ℕ)
    (hp : p < e.nDofsTVP) :
    (e.ResList (e.unpackT u) sTold (e.unpackV u) sVold (e.unpackP u) sPold).getD p 0
      = e.ResPacked sTold sVold sPold u p := by
  have hp' : p < e.nDofsT + e.dim * e.nDofsV + e.nDofsP := hp
  have hlen : p < (depDecls e.nDofsT e.nDofsV e.nDofsP e.dim).length := by
    rw [depDecls_length]
    exact hp'
  rw [ResList_eq_map_depDecls]
  rw [List.getD_eq_getElem _ _ (by simpa using hlen), List.getElem_map,
    ← List.getD_eq_getElem _ (Slot.T 0) hlen,
    depDecls_getD e.nDofsT e.nDofsV e.nDofsP e.dim p hp']
  unfold BElem.ResPacked BElem.aResPacked BElem.slotRes
  rcases slotOfPos e.nDofsT e.nDofsV e.nDofsP e.dim p with i | ⟨k, i⟩ | i <;> rfl

/-! ## Congruence of the assembler in the entries the loops actually read -/

theorem solT_gss_congr (e : BElem K) (sT sT' : ℕ → K) (g : ℕ)
    (h : ∀ i, i < e.nDofsT → sT i = sT' i) :
    e.solT_gss sT g = e.solT_gss sT' g :=
  Finset.sum_congr rfl fun i hi => by rw [h i (Finset.mem_range.mp hi)]

theorem gradSolT_gss_congr (e : BElem K) (sT sT' : ℕ → K) (g j : ℕ)
    (h : ∀ i, i < e.nDofsT → sT i = sT' i) :
    e.gradSolT_gss sT g j = e.gradSolT_gss sT' g j :=
  Finset.sum_congr rfl fun i hi => by rw [h i (Finset.mem_range.mp hi)]

theorem Temp_congr (e : BElem K) (sT sT' : ℕ → K) (sV : ℕ → ℕ → K) (g i : ℕ)
    (h : ∀ i, i < e.nDofsT → sT i = sT' i) :
    e.Temp sT sV g i = e.Temp sT' sV g i := by
  unfold BElem.Temp
  refine Finset.sum_congr rfl fun j _ => ?_
  rw [gradSolT_gss_congr e sT sT' g j h]

theorem NSV_congr (e : BElem K) (sT sT' : ℕ → K) (sV : ℕ → ℕ → K) (sP : ℕ → K)
    (g i k : ℕ) (h : ∀ i, i < e.nDofsT → sT i = sT' i) :
    e.NSV sT sV sP g i k = e.NSV sT' sV sP g i k := by
  unfold BElem.NSV
  rw [solT_gss_congr e sT sT' g h]

theorem aResT_congr (e : BElem K) (sT sT' sTold sTold' : ℕ → K)
    (sV sVold : ℕ → ℕ → K) (i : ℕ)
    (hT : ∀ i, i < e.nDofsT → sT i = sT' i)
    (hTold : ∀ i, i < e.nDofsT → sTold i = sTold' i) :
    e.aResT sT sTold sV sVold i = e.aResT sT' sTold' sV sVold i := by
  unfold BElem.aResT BElem.gaussResT
  refine Finset.sum_congr rfl fun g _ => ?_
  rw [solT_gss_congr e sT sT' g hT, solT_gss_congr e sTold sTold' g hTold,
    Temp_congr e sT sT' sV g i hT, Temp_congr e sTold sTold' sVold g i hTold]

theorem aResV_congr (e : BElem K) (sT sT' sTold sTold' : ℕ → K)
    (sV sVold : ℕ → ℕ → K) (sP sPold : ℕ → K) (k i : ℕ)
    (hT : ∀ i, i < e.nDofsT → sT i = sT' i)
    (hTold : ∀ i, i < e.nDofsT → sTold i = sTold' i) :
    e.aResV sT sTold sV sVold sP sPold k i = e.aResV sT' sTold' sV sVold sP sPold k i := by
  unfold BElem.aResV BElem.gaussResV
  refine Finset.sum_congr rfl fun g _ => ?_
  rw [NSV_congr e sT sT' sV sP g i k hT, NSV_congr e sTold sTold' sVold sPold g i k hTold]

theorem ResList_congr (e : BElem K) (sT sT' sTold sTold' : ℕ → K)
    (sV sVold : ℕ → ℕ → K) (sP sPold : ℕ → K)
    (hT : ∀ i, i < e.nDofsT → sT i = sT' i)
    (hTold : ∀ i, i < e.nDofsT → sTold i = sTold' i) :
    e.ResList sT sTold sV sVold sP sPold = e.ResList sT' sTold' sV sVold sP sPold := by
  rw [ResList_eq_map_depDecls, ResList_eq_map_depDecls]
  refine List.map_congr_left fun s _ => ?_
  rcases s with i | ⟨k, i⟩ | i
  · show -(e.aResT sT sTold sV sVold i) = -(e.aResT sT' sTold' sV sVold i)
    rw [aResT_congr e sT sT' sTold sTold' sV sVold i hT hTold]
  · show -(e.aResV sT sTold sV sVold sP sPold k i)
      = -(e.aResV sT' sTold' sV sVold sP sPold k i)
    rw [aResV_congr e sT sT' sTold sTold' sV sVold sP sPold k i hT hTold]
  · rfl

theorem pack_congr (e : BElem K) (sT sT' : ℕ → K) (sV : ℕ → ℕ → K) (sP : ℕ → K)
    (hT : ∀ i, i < e.nDofsT → sT i = sT' i) :
    e.pack sT sV sP = e.pack sT' sV sP := by
  funext p
  unfold BElem.pack slotOfPos
  by_cases h1 : p < e.nDofsT
  · simp only [if_pos h1]
    exact hT p h1
  · by_cases h2 : p < e.nDofsT + e.dim * e.nDofsV
    · simp only [if_neg h1, if_pos h2]
    · simp only [if_neg h1, if_neg h2]

theorem aResPacked_old_congr (e : BElem K) (sTold sTold' : ℕ → K)
    (sVold : ℕ → ℕ → K) (sPold : ℕ → K) (u : ℕ → K) (p : ℕ)
    (hTold : ∀ i, i < e.nDofsT → sTold i = sTold' i) :
    e.aResPacked sTold sVold sPold u p = e.aResPacked sTold' sVold sPold u p := by
  unfold BElem.aResPacked
  rcases slotOfPos e.nDofsT e.nDofsV e.nDofsP e.dim p with i | ⟨k, i⟩ | i
  · exact aResT_congr e (e.unpackT u) (e.unpackT u) sTold sTold' (e.unpackV u) sVold i
      (fun _ _ => rfl) hTold
  · exact aResV_congr e (e.unpackT u) (e.unpackT u) sTold sTold' (e.unpackV u) sVold
      (e.unpackP u) sPold k i (fun _ _ => rfl) hTold
  · rfl

/-! ## The adept Jacobian as the exact derivative of the taped computation -/

theorem differentiable_update (u : ℕ → ℝ) (q m : ℕ) :
    Differentiable ℝ fun t => Function.update u q t m := by
  rcases eq_or_ne m q with h | h
  · subst h
    simp only [Function.update_same]
    exact differentiable_id
  · simp only [Function.update_noteq h]
    exact differentiable_const _

theorem differentiable_solT_gss (e : BElem ℝ) (sT : ℝ → ℕ → ℝ) (g : ℕ)
    (h : ∀ i, Differentiable ℝ fun t => sT t i) :
    Differentiable ℝ fun t => e.solT_gss (sT t) g := by
  unfold BElem.solT_gss
  exact Differentiable.sum fun i _ => (h i).const_mul _

theorem differentiable_gradSolT_gss (e : BElem ℝ) (sT : ℝ → ℕ → ℝ) (g j : ℕ)
    (h : ∀ i, Differentiable ℝ fun t => sT t i) :
    Differentiable ℝ fun t => e.gradSolT_gss (sT t) g j := by
  unfold BElem.gradSolT_gss
  exact Differentiable.sum fun i _ => (h i).const_mul _

theorem differentiable_solV_gss (e : BElem ℝ) (sV : ℝ → ℕ → ℕ → ℝ) (g k : ℕ)
    (h : ∀ k i, Differentiable ℝ fun t => sV t k i) :
    Differentiable ℝ fun t => e.solV_gss (sV t) g k := by
  unfold BElem.solV_gss
  exact Differentiable.sum fun i _ => (h k i).const_mul _

theorem differentiable_gradSolV_gss (e : BElem ℝ) (sV : ℝ → ℕ → ℕ → ℝ) (g k j : ℕ)
    (h : ∀ k i, Differentiable ℝ fun t => sV t k i) :
    Differentiable ℝ fun t => e.gradSolV_gss (sV t) g k j := by
  unfold BElem.gradSolV_gss
  exact Differentiable.sum fun i _ => (h k i).const_mul _

theorem differentiable_solP_gss (e : BElem ℝ) (sP : ℝ → ℕ → ℝ) (g : ℕ)
    (h : ∀ i, Differentiable ℝ fun t => sP t i) :
    Differentiable ℝ fun t => e.solP_gss (sP t) g := by
  unfold BElem.solP_gss
  exact Differentiable.sum fun i _ => (h i).const_mul _

theorem differentiable_Temp (e : BElem ℝ) (sT : ℝ → ℕ → ℝ) (sV : ℝ → ℕ → ℕ → ℝ)
    (g i : ℕ) (hT : ∀ i, Differentiable ℝ fun t => sT t i)
    (hV : ∀ k i, Differentiable ℝ fun t => sV t k i) :
    Differentiable ℝ fun t => e.Temp (sT t) (sV t) g i := by
  unfold BElem.Temp
  refine Differentiable.sum fun j _ => Differentiable.add ?_ ?_
  · exact (differentiable_gradSolT_gss e sT g j hT).const_mul _
  · exact ((differentiable_solV_gss e sV g j hV).mul
      (differentiable_gradSolT_gss e sT g j hT)).const_mul _

theorem differentiable_NSV (e : BElem ℝ) (sT : ℝ → ℕ → ℝ) (sV : ℝ → ℕ → ℕ → ℝ)
    (sP : ℝ → ℕ → ℝ) (g i k : ℕ) (hT : ∀ i, Differentiable ℝ fun t => sT t i)
    (hV : ∀ k i, Differentiable ℝ fun t => sV t k i)
    (hP : ∀ i, Differentiable ℝ fun t => sP t i) :
    Differentiable ℝ fun t => e.NSV (sT t) (sV t) (sP t) g i k := by
  unfold BElem.NSV
  refine Differentiable.add (Differentiable.add ?_ ?_) ?_
  · refine Differentiable.sum fun j _ => Differentiable.add ?_ ?_
    · exact ((differentiable_gradSolV_gss e sV g k j hV).add
        (differentiable_gradSolV_gss e sV g j k hV)).const_mul _
    · exact ((differentiable_solV_gss e sV g j hV).mul
        (differentiable_gradSolV_gss e sV g k j hV)).const_mul _
  · exact ((differentiable_solP_gss e sP g hP).neg).mul_const _
  · rcases eq_or_ne k 1 with hk | hk
    · simp only [if_pos hk]
      exact ((differentiable_solT_gss e sT g hT).const_mul _).mul_const _
    · simp only [if_neg hk]
      exact differentiable_const _

theorem differentiable_aResT (e : BElem ℝ) (sT : ℝ → ℕ → ℝ) (sTold : ℕ → ℝ)
    (sV : ℝ → ℕ → ℕ → ℝ) (sVold : ℕ → ℕ → ℝ) (i : ℕ)
    (hT : ∀ i, Differentiable ℝ fun t => sT t i)
    (hV : ∀ k i, Differentiable ℝ fun t => sV t k i) :
    Differentiable ℝ fun t => e.aResT (sT t) sTold (sV t) sVold i := by
  unfold BElem.aResT BElem.gaussResT
  refine Differentiable.sum fun g _ => Differentiable.mul_const ?_ _
  refine Differentiable.sub ?_ ?_
  · exact ((((differentiable_solT_gss e sT g hT).sub
      (differentiable_const _)).neg).mul_const _).div_const _
  · exact ((differentiable_Temp e sT sV g i hT hV).add (differentiable_const _)).const_mul _

theorem differentiable_aResV (e : BElem ℝ) (sT : ℝ → ℕ → ℝ) (sTold : ℕ → ℝ)
    (sV : ℝ → ℕ → ℕ → ℝ) (sVold : ℕ → ℕ → ℝ) (sP : ℝ → ℕ → ℝ) (sPold : ℕ → ℝ)
    (k i : ℕ) (hT : ∀ i, Differentiable ℝ fun t => sT t i)
    (hV : ∀ k i, Differentiable ℝ fun t => sV t k i)
    (hP : ∀ i, Differentiable ℝ fun t => sP t i) :
    Differentiable ℝ fun t => e.aResV (sT t) sTold (sV t) sVold (sP t) sPold k i := by
  unfold BElem.aResV BElem.gaussResV
  refine Differentiable.sum fun g _ => Differentiable.mul_const ?_ _
  refine Differentiable.sub ?_ ?_
  · exact ((((differentiable_solV_gss e sV g k hV).sub
      (differentiable_const _)).neg).mul_const _).div_const _
  · exact ((differentiable_NSV e sT sV sP g i k hT hV hP).add
      (differentiable_const _)).const_mul _

theorem differentiable_aResP (e : BElem ℝ) (sV : ℝ → ℕ → ℕ → ℝ) (i : ℕ)
    (hV : ∀ k i, Differentiable ℝ fun t => sV t k i) :
    Differentiable ℝ fun t => e.aResP (sV t) i := by
  unfold BElem.aResP BElem.gaussResP
  refine Differentiable.sum fun g _ => Differentiable.sum fun k _ => ?_
  exact (((differentiable_gradSolV_gss e sV g k k hV).neg).mul_const _).mul_const _

theorem differentiable_aResPacked (e : BElem ℝ) (sTold : ℕ → ℝ)
    (sVold : ℕ → ℕ → ℝ) (sPold : ℕ → ℝ) (u : ℕ → ℝ) (p q : ℕ) :
    Differentiable ℝ fun t =>
      e.aResPacked sTold sVold sPold (Function.update u q t) p := by
  have hT : ∀ i, Differentiable ℝ fun t => e.unpackT (Function.update u q t) i :=
    fun i => differentiable_update u q i
  have hV : ∀ k i, Differentiable ℝ fun t => e.unpackV (Function.update u q t) k i :=
    fun k i => differentiable_update u q _
  have hP : ∀ i, Differentiable ℝ fun t => e.unpackP (Function.update u q t) i :=
    fun i => differentiable_update u q _
  unfold BElem.aResPacked
  rcases slotOfPos e.nDofsT e.nDofsV e.nDofsP e.dim p with i | ⟨k, i⟩ | i
  · exact differentiable_aResT e (fun t => e.unpackT (Function.update u q t)) sTold
      (fun t => e.unpackV (Function.update u q t)) sVold i hT hV
  · exact differentiable_aResV e (fun t => e.unpackT (Function.update u q t)) sTold
      (fun t => e.unpackV (Function.update u q t)) sVold
      (fun t => e.unpackP (Function.update u q t)) sPold k i hT hV hP
  · exact differentiable_aResP e (fun t => e.unpackV (Function.update u q t)) i hV

/-- The local Jacobian entry produced by `s.jacobian(&Jac[0], true)` (row-major)
for dependent position `p` and independent position `q` of the declared
layout: adept extracts the exact partial derivative of the taped dependent
with respect to the tagged independent, here the derivative of the packed
accumulator in coordinate `q` at the current unknowns. -/
noncomputable def JacEntry (e : BElem ℝ) (sTold : ℕ → ℝ) (sVold : ℕ → ℕ → ℝ)
    (sPold : ℕ → ℝ) (u : ℕ → ℝ) (p q : ℕ) : ℝ :=
  deriv (fun t => e.aResPacked sTold sVold sPold (Function.update u q t) p) (u q)

/-- C1 (amended): over exact real arithmetic, the Jacobian entry extracted
from the recording is the partial derivative of the internal accumulator
`aRes`, i.e. the NEGATIVE of the partial derivative of the scattered residual
entry `Res[p] = -aRes[p]` with respect to unknown `q`; and for `p` inside the
local layout the packed residual entry is exactly the `Res` entry scattered by
`add_vector_blocked`. -/
theorem c1_jacobian_is_minus_residual_derivative (e : BElem ℝ)
    (sTold : ℕ → ℝ) (sVold : ℕ → ℕ → ℝ) (sPold : ℕ → ℝ) (u : ℕ → ℝ) (p q : ℕ) :
    HasDerivAt (fun t => e.ResPacked sTold sVold sPold (Function.update u q t) p)
      (-(JacEntry e sTold sVold sPold u p q)) (u q)
    ∧ (p < e.nDofsTVP →
      (e.ResList (e.unpackT u) sTold (e.unpackV u) sVold (e.unpackP u) sPold).getD p 0
        = e.ResPacked sTold sVold sPold u p) := by
  constructor
  · have hdiff := differentiable_aResPacked e sTold sVold sPold u p q
    have h1 : HasDerivAt
        (fun t => e.aResPacked sTold sVold sPold (Function.update u q t) p)
        (JacEntry e sTold sVold sPold u p q) (u q) :=
      (hdiff (u q)).hasDerivAt
    exact h1.neg
  · intro hp
    exact ResList_getD_eq_ResPacked e sTold sVold sPold u p hp

/-- The all-zero local temperature/pressure array. -/
def zeroT : ℕ → ℝ := fun _ => 0

/-- The all-zero local velocity array. -/
def zeroV : ℕ → ℕ → ℝ := fun _ _ => 0

/-- A concrete small element (`dim = 2`, one dof per field, one Gauss point,
`phiT = 1`, all gradients and the other shape functions zero, `dt = 1`,
coefficients zero) on which the temperature residual is `aResT[0] = -(T - Told)`. -/
def eCex : BElem ℝ where
  dim := 2
  nDofsT := 1
  nDofsV := 1
  nDofsP := 1
  nGauss := 1
  weight := fun _ => 1
  phiT := fun _ _ => 1
  phiT_x := fun _ _ _ => 0
  phiV := fun _ _ => 0
  phiV_x := fun _ _ _ => 0
  phiP := fun _ _ => 0
  dt := 1
  cT := 0
  cV := 0
  beta := 0

theorem cexFunEq :
    (fun t : ℝ => eCex.aResPacked zeroT zeroV zeroT (Function.update zeroT 0 t) 0)
      = fun t => -t := by
  funext t
  have hslot : slotOfPos eCex.nDofsT eCex.nDofsV eCex.nDofsP eCex.dim 0 = Slot.T 0 := by
    simp [slotOfPos, eCex]
  show eCex.aResPacked zeroT zeroV zeroT (Function.update zeroT 0 t) 0 = -t
  unfold BElem.aResPacked
  rw [hslot]
  simp [BElem.aResT, BElem.gaussResT, BElem.Temp, BElem.solT_gss, BElem.gradSolT_gss,
    BElem.solV_gss, BElem.unpackT, BElem.unpackV, eCex, zeroT, zeroV,
    Finset.sum_range_one, Finset.sum_range_succ, Function.update_same]

/-- C1 (counterexample to the claim as stated): on a concrete element the
extracted Jacobian entry `Jac[0][0]` is `-1` while the partial derivative of
the scattered residual entry `Res[0]` with respect to unknown `0` is `+1`;
the two differ by sign, so the Jacobian does not equal the derivative of the
scattered residual. -/
theorem c1_counterexample :
    JacEntry eCex zeroT zeroV zeroT zeroT 0 0
      ≠ deriv (fun t => eCex.ResPacked zeroT zeroV zeroT (Function.update zeroT 0 t) 0)
          (zeroT 0) := by
  have h1 : JacEntry eCex zeroT zeroV zeroT zeroT 0 0 = -1 := by
    unfold JacEntry
    rw [show Function.update zeroT 0 = Function.update zeroT 0 from rfl]
    rw [cexFunEq]
    have h : HasDerivAt (fun t : ℝ => -t) (-1) (zeroT 0) := (hasDerivAt_id (zeroT 0)).neg
    exact h.deriv
  have h2 : deriv (fun t => eCex.ResPacked zeroT zeroV zeroT (Function.update zeroT 0 t) 0)
      (zeroT 0) = 1 := by
    have hfun : (fun t : ℝ =>
        eCex.ResPacked zeroT zeroV zeroT (Function.update zeroT 0 t) 0) = fun t => t := by
      funext t
      show -(eCex.aResPacked zeroT zeroV zeroT (Function.update zeroT 0 t) 0) = t
      rw [congrFun cexFunEq t]
      ring
    rw [hfun]
    have h : HasDerivAt (fun t : ℝ => t) 1 (zeroT 0) := hasDerivAt_id (zeroT 0)
    exact h.deriv
  rw [h1, h2]
  norm_num

theorem c1_witness :
    HasDerivAt (fun t => eCex.ResPacked zeroT zeroV zeroT (Function.update zeroT 0 t) 0)
      (-(JacEntry eCex zeroT zeroV zeroT zeroT 0 0)) (zeroT 0)
    ∧ ((eCex.ResList (eCex.unpackT zeroT) zeroT (eCex.unpackV zeroT) zeroV
        (eCex.unpackP zeroT) zeroT).getD 0 0
      = eCex.ResPacked zeroT zeroV zeroT zeroT 0) :=
  ⟨(c1_jacobian_is_minus_residual_derivative eCex zeroT zeroV zeroT zeroT 0 0).1,
   (c1_jacobian_is_minus_residual_derivative eCex zeroT zeroV zeroT zeroT 0 0).2
     (by norm_num [BElem.nDofsTVP, eCex])⟩

/-- C10: the trailing entries of the oversized local temperature buffers
(`solT`, `solTold`, `aResT` are resized to `nDofsV` but only the first
`nDofsT` entries are written, read, or declared to the recording) never reach
the global system: the scattered residual and every extracted Jacobian entry
depend only on the first `nDofsT` entries of `solT` and `solTold`, so oversized
buffers produce exactly what exact-size buffers would. -/
theorem c10_oversized_temperature_buffers_harmless (e : BElem ℝ)
    (sT sT' sTold sTold' : ℕ → ℝ) (sV sVold : ℕ → ℕ → ℝ) (sP sPold : ℕ → ℝ)
    (hT : ∀ i, i < e.nDofsT → sT i = sT' i)
    (hTold : ∀ i, i < e.nDofsT → sTold i = sTold' i) :
    e.ResList sT sTold sV sVold sP sPold = e.ResList sT' sTold' sV sVold sP sPold
    ∧ ∀ p q : ℕ, JacEntry e sTold sVold sPold (e.pack sT sV sP) p q
        = JacEntry e sTold' sVold sPold (e.pack sT' sV sP) p q := by
  constructor
  · exact ResList_congr e sT sT' sTold sTold' sV sVold sP sPold hT hTold
  · intro p q
    unfold JacEntry
    have hpack : e.pack sT sV sP = e.pack sT' sV sP := pack_congr e sT sT' sV sP hT
    rw [hpack]
    congr 1
    funext t
    exact aResPacked_old_congr e sTold sTold' sVold sPold
      (Function.update (e.pack sT' sV sP) q t) p hTold

/-- A temperature buffer whose entries beyond the first (`nDofsT = 1`) hold
garbage. -/
def sTgarbage : ℕ → ℝ := fun i => if i = 0 then 0 else 42

theorem c10_witness :
    eCex.ResList zeroT zeroT zeroV zeroV zeroT zeroT
      = eCex.ResList sTgarbage sTgarbage zeroV zeroV zeroT zeroT
    ∧ ∀ p q : ℕ, JacEntry eCex zeroT zeroV zeroT (eCex.pack zeroT zeroV zeroT) p q
        = JacEntry eCex sTgarbage zeroV zeroT (eCex.pack sTgarbage zeroV zeroT) p q :=
  c10_oversized_temperature_buffers_harmless eCex zeroT sTgarbage zeroT sTgarbage
    zeroV zeroV zeroT zeroT
    (by
      intro i hi
      have h1 : eCex.nDofsT = 1 := rfl
      rw [h1] at hi
      have : i = 0 := by omega
      subst this
      simp [zeroT, sTgarbage])
    (by
      intro i hi
      have h1 : eCex.nDofsT = 1 := rfl
      rw [h1] at hi
      have : i = 0 := by omega
      subst this
      simp [zeroT, sTgarbage])

/-! ## Boundary Neumann/Robin contributions (shaflynn.cpp) -/

section Neumann

variable {F : Type} [LinearOrderedField F]

/-- One face of an element as seen by `neumann_loop_1d`: the
`GetFaceElementIndex` value (negative on a physical boundary), the predicate
result `(is_dirichlet, grad_u_dot_n)` evaluated at the face element center,
the face dof count, and the face-to-volume index map
`GetLocalFaceVertexIndex`. -/
structure Face1d (F : Type) where
  boundary_index : ℤ
  isDirichlet : Bool
  datum : F
  n_dofs_face : ℕ
  i_vol : ℕ → ℕ

/-- Processing of one face by `neumann_loop_1d`: on a boundary face with
`!is_dirichlet && grad_u_dot_n != 0`, add `grad_u_dot_n` (implicit unit
weight, no Jacobian transform, no quadrature loop) to `Res[i_vol]` for every
face dof; otherwise leave `Res` unchanged. -/
def neumannFace1d (Res : ℕ → F) (f : Face1d F) : ℕ → F :=
  if f.boundary_index < 0 then
    if f.isDirichlet = false ∧ f.datum ≠ 0 then
      (List.range f.n_dofs_face).foldl
        (fun R i => Function.update R (f.i_vol i) (R (f.i_vol i) + f.datum)) Res
    else Res
  else Res

/-- The 1d Neumann loop over all faces of an element. -/
def neumann_loop_1d (Res : ℕ → F) (faces : List (Face1d F)) : ℕ → F :=
  faces.foldl neumannFace1d Res

/-- One face of an element as seen by `neumann_loop_2d3d`: additionally the
face quadrature rule (weights), the face Jacobian determinant from `JacJacInv`
at each face quadrature point, and the face shape-function values. -/
structure Face2d (F : Type) where
  boundary_index : ℤ
  isDirichlet : Bool
  datum : F
  nGaussBdry : ℕ
  gaussW : ℕ → F
  detJac : ℕ → F
  n_dofs_face : ℕ
  i_vol : ℕ → ℕ
  phi : ℕ → ℕ → F

/-- Processing of one face by `neumann_loop_2d3d`: on a boundary face with
`!is_dirichlet` (the `grad_u_dot_n != 0` test is commented out in this loop),
for each face quadrature point `weight_iqp_bdry = detJac_iqp_bdry *
gaussWeight` and `Res[i_vol] += weight_iqp_bdry * grad_u_dot_n * phi[i_bdry]`
for every face dof; otherwise leave `Res` unchanged. -/
def neumannFace2d3d (Res : ℕ → F) (f : Face2d F) : ℕ → F :=
  if f.boundary_index < 0 then
    if f.isDirichlet = false then
      (List.range f.nGaussBdry).foldl (fun R ig =>
        (List.range f.n_dofs_face).foldl (fun R i =>
          Function.update R (f.i_vol i)
            (R (f.i_vol i) + (f.detJac ig * f.gaussW ig) * f.datum * f.phi ig i)) R) Res
    else Res
  else Res

/-- The 2d/3d Neumann loop over all faces of an element. -/
def neumann_loop_2d3d (Res : ℕ → F) (faces : List (Face2d F)) : ℕ → F :=
  faces.foldl neumannFace2d3d Res

theorem foldl_range_add_update (g : ℕ → ℕ) (amt : ℕ → F) (n : ℕ) (R : ℕ → F) (r : ℕ) :
    ((List.range n).foldl (fun R i => Function.update R (g i) (R (g i) + amt i)) R) r
      = R r + ∑ i ∈ Finset.range n, (if g i = r then amt i else 0) := by
  induction n with
  | zero => simp
  | succ n ih =>
    rw [List.range_succ, List.foldl_append, Finset.sum_range_succ]
    simp only [List.foldl_cons, List.foldl_nil]
    rw [Function.update_apply]
    by_cases h : r = g n
    · rw [if_pos h, if_pos h.symm, ← h, ih]
      ring
    · rw [if_neg h, if_neg (fun hc => h hc.symm), ih]
      ring

theorem foldl_range_add (step : (ℕ → F) → ℕ → (ℕ → F)) (c : ℕ → ℕ → F)
    (hstep : ∀ R ig r, step R ig r = R r + c ig r) (n : ℕ) (R : ℕ → F) (r : ℕ) :
    ((List.range n).foldl step R) r = R r + ∑ ig ∈ Finset.range n, c ig r := by
  induction n with
  | zero => simp
  | succ n ih =>
    rw [List.range_succ, List.foldl_append, Finset.sum_range_succ]
    simp only [List.foldl_cons, List.foldl_nil]
    rw [hstep, ih]
    ring

/-- C9: in one dimension, a boundary face whose predicate returns
`isDirichlet = false` with datum `d` increments each face-local residual slot
by exactly `d` (a single-point face: unit weight, no Jacobian transform, no
quadrature loop), counted once per face dof mapping to the slot; this also
holds when `d = 0` (the `grad_u_dot_n != 0` short-circuit skips the loop, and
the residual is unchanged).  Dirichlet faces and interior faces contribute
nothing. -/
theorem c9_neumann_1d_adds_datum (Res : ℕ → F) (f : Face1d F) (r : ℕ) :
    neumannFace1d Res f r
      = Res r + (if f.boundary_index < 0 ∧ f.isDirichlet = false
          then f.datum
            * (((Finset.range f.n_dofs_face).filter fun i => f.i_vol i = r).card : F)
          else 0) := by
  unfold neumannFace1d
  by_cases h1 : f.boundary_index < 0
  · by_cases h2 : f.isDirichlet = false
    · by_cases h3 : f.datum = 0
      · rw [if_pos h1, if_neg (fun hc => hc.2 h3), if_pos ⟨h1, h2⟩, h3]
        ring
      · rw [if_pos h1, if_pos ⟨h2, h3⟩, if_pos ⟨h1, h2⟩,
          foldl_range_add_update (f.i_vol) (fun _ => f.datum) f.n_dofs_face Res r]
        congr 1
        rw [← Finset.sum_filter, Finset.sum_const, nsmul_eq_mul, mul_comm]
    · rw [if_pos h1, if_neg (fun hc => h2 hc.1), if_neg (fun hc => h2 hc.2)]
      ring
  · rw [if_neg h1, if_neg (fun hc => h1 hc.1)]
    ring

/-- C5: in two/three dimensions, a boundary face whose predicate returns
`isDirichlet = false` with datum `d` increments the residual slot of every
face-local test function, at each face quadrature point, by exactly
`faceQuadratureWeight * |detJac| * d * phi`; Dirichlet faces and interior
faces contribute nothing.  The absolute value agrees with the code's plain
`detJac` factor under the hypothesis that the face Jacobian determinant from
the external shape provider is nonnegative (it is a codimension-one area
element, per the spec). -/
theorem c5_neumann_2d3d_weak_contribution (Res : ℕ → F) (f : Face2d F) (r : ℕ)
    (hdet : ∀ ig, 0 ≤ f.detJac ig) :
    neumannFace2d3d Res f r
      = Res r + (if f.boundary_index < 0 ∧ f.isDirichlet = false
          then ∑ ig ∈ Finset.range f.nGaussBdry, ∑ i ∈ Finset.range f.n_dofs_face,
            (if f.i_vol i = r then f.gaussW ig * |f.detJac ig| * f.datum * f.phi ig i
             else 0)
          else 0) := by
  unfold neumannFace2d3d
  by_cases h1 : f.boundary_index < 0
  · by_cases h2 : f.isDirichlet = false
    · rw [if_pos h1, if_pos h2, if_pos ⟨h1, h2⟩]
      rw [foldl_range_add _
        (fun ig r => ∑ i ∈ Finset.range f.n_dofs_face,
          (if f.i_vol i = r then (f.detJac ig * f.gaussW ig) * f.datum * f.phi ig i
           else 0))
        (fun R ig r => foldl_range_add_update (f.i_vol)
          (fun i => (f.detJac ig * f.gaussW ig) * f.datum * f.phi ig i)
          f.n_dofs_face R r)
        f.nGaussBdry Res r]
      congr 1
      refine Finset.sum_congr rfl fun ig _ => Finset.sum_congr rfl fun i _ => ?_
      rw [abs_of_nonneg (hdet ig)]
      by_cases h : f.i_vol i = r
      · rw [if_pos h, if_pos h]
        ring
      · rw [if_neg h, if_neg h]
    · rw [if_pos h1, if_neg h2, if_neg (fun hc => h2 hc.2)]
      ring
  · rw [if_neg h1, if_neg (fun hc => h1 hc.1)]
    ring

/-- A concrete boundary face for the 2d/3d loop, with nonnegative face
Jacobian determinant. -/
def faceW : Face2d ℚ where
  boundary_index := -1
  isDirichlet := false
  datum := 2
  nGaussBdry := 1
  gaussW := fun _ => 5
  detJac := fun _ => 3
  n_dofs_face := 1
  i_vol := fun i => i
  phi := fun _ _ => 7

theorem c5_witness :
    neumannFace2d3d (fun _ => (0 : ℚ)) faceW 0
      = (fun _ => (0 : ℚ)) 0 + (if faceW.boundary_index < 0 ∧ faceW.isDirichlet = false
          then ∑ ig ∈ Finset.range faceW.nGaussBdry, ∑ i ∈ Finset.range faceW.n_dofs_face,
            (if faceW.i_vol i = 0
             then faceW.gaussW ig * |faceW.detJac ig| * faceW.datum * faceW.phi ig i
             else 0)
          else 0) :=
  c5_neumann_2d3d_weak_contribution (fun _ => (0 : ℚ)) faceW 0
    (fun ig => by norm_num [faceW])

end Neumann

/-! ## FieldSplitTree instances built in main (Conformal/ex7) -/

/-- Outer iterative-scheme kinds used by the program. -/
inductive SolverKind where
  | PREONLY : SolverKind
  | RICHARDSON : SolverKind
deriving DecidableEq, Repr

/-- Preconditioner kinds used by the program. -/
inductive PrecondKind where
  | ASM_PRECOND : PrecondKind
  | FIELDSPLIT_PRECOND : PrecondKind
deriving DecidableEq, Repr

/-- Modelled from the spec: the `FieldSplitTree` class (its header is included
but the class implementation is not under `src/`): a leaf stores an outer
solver kind, a preconditioner kind and its field-index set; an internal node
stores ordered child trees (§4.5 CreateLeaf/CreateNode).  The solution-type
tags and the ASM block-size/Schur settings are omitted: they do not affect the
field partition. -/
inductive FSTree where
  | leaf (outer : SolverKind) (precond : PrecondKind) (fields : List ℕ)
      (name : String) : FSTree
  | node (outer : SolverKind) (precond : PrecondKind) (children : List FSTree)
      (name : String) : FSTree

/-- The field-index sets of the leaves of a tree, left to right. -/
def leafSets : FSTree → List (List ℕ)
  | .leaf _ _ fs _ => [fs]
  | .node _ _ [] _ => []
  | .node o p (c :: cs) n => leafSets c ++ leafSets (.node o p cs n)

/-- The unknowns of the `"NS"` system in the order they are added by
`AddSolutionToSystemPDE` in `main`: `U`, `V`, `P`, then `T` (the mesh
`rectangle_w4_h1.neu` is two-dimensional, so no `W`). -/
def nsSystemUnknowns : List String := ["U", "V", "P", "T"]

/-- `GetSolPdeIndex`: position of an unknown in the order of addition. -/
def GetSolPdeIndex (s : String) : ℕ := nsSystemUnknowns.indexOf s

/-- The field set `fieldUVP` of the Navier-Stokes split. -/
def fieldUVP : List ℕ := [GetSolPdeIndex "U", GetSolPdeIndex "V", GetSolPdeIndex "P"]

/-- The field set `fieldT` of the temperature split. -/
def fieldT : List ℕ := [GetSolPdeIndex "T"]

/-- `FieldSplitTree FS_NS(PREONLY, ASM_PRECOND, fieldUVP, solutionTypeUVP,
"Navier-Stokes")`. -/
def FS_NS : FSTree := .leaf .PREONLY .ASM_PRECOND fieldUVP "Navier-Stokes"

/-- `FieldSplitTree FS_T(PREONLY, ASM_PRECOND, fieldT, solutionTypeT,
"Temperature")`. -/
def FS_T : FSTree := .leaf .PREONLY .ASM_PRECOND fieldT "Temperature"

/-- `FieldSplitTree FS_NST(RICHARDSON, FIELDSPLIT_PRECOND, FS2, "Benard")`
with `FS2 = [&FS_NS, &FS_T]`. -/
def FS_NST : FSTree := .node .RICHARDSON .FIELDSPLIT_PRECOND [FS_NS, FS_T] "Benard"

/-- C7: in every FieldSplitTree the program constructs, the sibling leaves'
field-index sets are pairwise disjoint, and the root tree's leaves partition
the full unknown set of the `"NS"` system: `{U,V,P} ∪ {T} = {U,V,P,T}` with no
index repeated. -/
theorem c7_fieldsplit_partition :
    (∀ t ∈ [FS_NS, FS_T, FS_NST],
      List.Pairwise (fun a b => ∀ x ∈ a, x ∉ b) (leafSets t))
    ∧ (leafSets FS_NST).flatten.toFinset = Finset.range nsSystemUnknowns.length
    ∧ (leafSets FS_NST).flatten.Nodup := by
  have eNST : leafSets FS_NST = [fieldUVP, fieldT] := by
    unfold FS_NST FS_NS FS_T
    rw [leafSets, leafSets, leafSets, leafSets, leafSets]
    rfl
  have eNS : leafSets FS_NS = [fieldUVP] := by
    unfold FS_NS
    rw [leafSets]
  have eT : leafSets FS_T = [fieldT] := by
    unfold FS_T
    rw [leafSets]
  refine ⟨?_, ?_, ?_⟩
  · intro t ht
    rcases List.mem_cons.mp ht with h | ht
    · rw [h, eNS]
      decide
    rcases List.mem_cons.mp ht with h | ht
    · rw [h, eT]
      decide
    rcases List.mem_cons.mp ht with h | ht
    · rw [h, eNST]
      decide
    · simp at ht
  · rw [eNST]
    decide
  · rw [eNST]
    decide

/-! ## Point-probe max/min selection (GetKineandPointVlaue) -/

section Probe

variable {F : Type} [LinearOrderedField F]

/-- `NumericVector::max()` of the closed per-partition vector (one entry per
partition). -/
def vecMax : List F → F
  | [] => 0
  | a :: l => l.foldl max a

/-- `NumericVector::min()` of the closed per-partition vector. -/
def vecMin : List F → F
  | [] => 0
  | a :: l => l.foldl min a

/-- The point-probe selection of `GetKineandPointVlaue`, as executed on one
partition whose local probe value is `lcl`: `ptCoord1 = max; ptCoord2 = min;
if (fabs(ptCoord1) > 1e-6) pt = ptCoord1; if (fabs(ptCoord2) > 1e-6)
pt = ptCoord2;` starting from `pt = lcl`. -/
def selectProbe (entries : List F) (lcl : F) : F :=
  let p1 := if |vecMax entries| > 1 / 1000000 then vecMax entries else lcl
  if |vecMin entries| > 1 / 1000000 then vecMin entries else p1

theorem foldl_max_init_le (l : List F) (a : F) : a ≤ l.foldl max a := by
  induction l generalizing a with
  | nil => exact le_refl a
  | cons b l ih => exact le_trans (le_max_left a b) (ih (max a b))

theorem foldl_max_mem_le (l : List F) (a x : F) (h : x ∈ l) : x ≤ l.foldl max a := by
  induction l generalizing a with
  | nil => simp at h
  | cons b l ih =>
    rcases List.mem_cons.mp h with h | h
    · rw [h]
      exact le_trans (le_max_right a b) (foldl_max_init_le l (max a b))
    · exact ih (max a b) h

theorem foldl_max_mem (l : List F) (a : F) : l.foldl max a ∈ a :: l := by
  induction l generalizing a with
  | nil => simp
  | cons b l ih =>
    have := ih (max a b)
    rcases List.mem_cons.mp this with h | h
    · rcases max_choice a b with hm | hm
      · rw [List.foldl_cons, h, hm]
        exact List.mem_cons_self _ _
      · rw [List.foldl_cons, h, hm]
        exact List.mem_cons_of_mem _ (List.mem_cons_self _ _)
    · exact List.mem_cons_of_mem _ (List.mem_cons_of_mem _ h)

theorem foldl_min_le_init (l : List F) (a : F) : l.foldl min a ≤ a := by
  induction l generalizing a with
  | nil => exact le_refl a
  | cons b l ih => exact le_trans (ih (min a b)) (min_le_left a b)

theorem foldl_min_le_mem (l : List F) (a x : F) (h : x ∈ l) : l.foldl min a ≤ x := by
  induction l generalizing a with
  | nil => simp at h
  | cons b l ih =>
    rcases List.mem_cons.mp h with h | h
    · rw [h]
      exact le_trans (foldl_min_le_init l (min a b)) (min_le_right a b)
    · exact ih (min a b) h

theorem foldl_min_mem (l : List F) (a : F) : l.foldl min a ∈ a :: l := by
  induction l generalizing a with
  | nil => simp
  | cons b l ih =>
    have := ih (min a b)
    rcases List.mem_cons.mp this with h | h
    · rcases min_choice a b with hm | hm
      · rw [List.foldl_cons, h, hm]
        exact List.mem_cons_self _ _
      · rw [List.foldl_cons, h, hm]
        exact List.mem_cons_of_mem _ (List.mem_cons_self _ _)
    · exact List.mem_cons_of_mem _ (List.mem_cons_of_mem _ h)

theorem vecMax_mem (l : List F) (h : l ≠ []) : vecMax l ∈ l := by
  rcases l with _ | ⟨a, t⟩
  · exact absurd rfl h
  · exact foldl_max_mem t a

theorem le_vecMax (l : List F) (x : F) (h : x ∈ l) : x ≤ vecMax l := by
  rcases l with _ | ⟨a, t⟩
  · simp at h
  · rcases List.mem_cons.mp h with h | h
    · rw [h]
      exact foldl_max_init_le t a
    · exact foldl_max_mem_le t a x h

theorem vecMin_mem (l : List F) (h : l ≠ []) : vecMin l ∈ l := by
  rcases l with _ | ⟨a, t⟩
  · exact absurd rfl h
  · exact foldl_min_mem t a

theorem vecMin_le (l : List F) (x : F) (h : x ∈ l) : vecMin l ≤ x := by
  rcases l with _ | ⟨a, t⟩
  · simp at h
  · rcases List.mem_cons.mp h with h | h
    · rw [h]
      exact foldl_min_le_init t a
    · exact foldl_min_le_mem t a x h

/-- C8 (amended): if the true probe value `v` satisfies `|v| > 1e-6` (the
code's threshold; "non-zero" alone is not enough), is held by exactly one
partition, and every other partition holds zero, then the max/min selection
returns exactly `v` on every partition. -/
theorem c8_point_probe_selection (entries : List F) (v : F) (hIdx : ℕ)
    (hlen : hIdx < entries.length) (hv : 1 / 1000000 < |v|)
    (hhold : entries.getD hIdx 0 = v)
    (hother : ∀ p, p < entries.length → p ≠ hIdx → entries.getD p 0 = 0) :
    ∀ p, p < entries.length → selectProbe entries (entries.getD p 0) = v := by
  intro p hp
  have hne : entries ≠ [] := by
    intro he
    rw [he] at hlen
    simp at hlen
  have hvmem : v ∈ entries := by
    rw [← hhold, List.getD_eq_getElem _ _ hlen]
    exact List.getElem_mem hlen
  have hall : ∀ x ∈ entries, x = v ∨ x = 0 := by
    intro x hx
    obtain ⟨i, hi, hxi⟩ := List.mem_iff_getElem.mp hx
    by_cases hih : i = hIdx
    · left
      have h2 : entries.getD i 0 = v := by
        rw [hih]
        exact hhold
      rw [← hxi, ← List.getD_eq_getElem _ 0 hi]
      exact h2
    · right
      rw [← hxi, ← List.getD_eq_getElem _ 0 hi]
      exact hother i hi hih
  have heps : (0 : F) < 1 / 1000000 := by positivity
  have hvne : v ≠ 0 := by
    intro h0
    rw [h0, abs_zero] at hv
    exact absurd hv (not_lt.mpr (le_of_lt heps))
  have hMv : v ≤ vecMax entries := le_vecMax entries v hvmem
  have hMcase := hall (vecMax entries) (vecMax_mem entries hne)
  have hmv : vecMin entries ≤ v := vecMin_le entries v hvmem
  have hmcase := hall (vecMin entries) (vecMin_mem entries hne)
  unfold selectProbe
  rcases lt_trichotomy v 0 with hneg | hzero | hpos
  · -- v < 0: the min is v and its magnitude passes the threshold
    have hmin : vecMin entries = v := by
      rcases hmcase with h | h
      · exact h
      · exact absurd (h ▸ hmv) (not_le.mpr hneg)
    rw [hmin, if_pos hv]
  · exact absurd hzero hvne
  · -- v > 0: the max is v; the min is v or 0
    have hmax : vecMax entries = v := by
      rcases hMcase with h | h
      · exact h
      · exact absurd (h ▸ hMv) (not_le.mpr hpos)
    rcases hmcase with hmin | hmin
    · rw [hmin, if_pos hv]
    · rw [hmin]
      have : ¬ |(0 : F)| > 1 / 1000000 := by
        rw [abs_zero]
        exact not_lt.mpr (le_of_lt heps)
      rw [if_neg this, hmax, if_pos hv]

/-- C8 (counterexample to the claim as stated): with two partitions, a true
probe value `1e-7` (non-zero, below the `1e-6` threshold) held only by
partition 0, partition 1 returns `0`, not the probe value. -/
theorem c8_counterexample :
    ((1 : ℚ) / 10000000 ≠ 0)
    ∧ [(1 : ℚ) / 10000000, 0].getD 0 0 = 1 / 10000000
    ∧ [(1 : ℚ) / 10000000, 0].getD 1 0 = 0
    ∧ selectProbe [(1 : ℚ) / 10000000, 0] ([(1 : ℚ) / 10000000, 0].getD 1 0)
        ≠ 1 / 10000000 := by
  refine ⟨by norm_num, by norm_num, by norm_num, ?_⟩
  show selectProbe [(1 : ℚ) / 10000000, 0] ([(1 : ℚ) / 10000000, 0].getD 1 0)
      ≠ 1 / 10000000
  have habs : |(1 : ℚ) / 10000000| = 1 / 10000000 := abs_of_nonneg (by norm_num)
  have hmax : max ((1 : ℚ) / 10000000) 0 = 1 / 10000000 := max_eq_left (by norm_num)
  have hmin : min ((1 : ℚ) / 10000000) 0 = 0 := min_eq_right (by norm_num)
  norm_num [selectProbe, vecMax, vecMin, List.getD, habs, hmax, hmin]

theorem c8_witness :
    selectProbe [(1 : ℚ), 0] (([(1 : ℚ), 0]).getD 1 0) = 1 :=
  c8_point_probe_selection [(1 : ℚ), 0] 1 0 (by norm_num) (by norm_num)
    (by norm_num)
    (by
      intro p hp hp0
      simp at hp
      interval_cases p
      · exact absurd rfl hp0
      · norm_num)
    1 (by norm_num)

end Probe
